import Mathlib

/-!
# Verification of the `peptides.ranges` engine

Shallow embedding of `src/peptides/ranges/__init__.py`: the `_Pattern` class,
the `_Range` class and the module-level `range()` factory, together with
proofs about the embedded definitions.

Python integers are modelled as `Int`.  Python's `divmod`/`%` use floored
division, which is `Int.fdiv`/`Int.fmod`.  The `stop` bound of a range can be
an integer or a floating-point infinity; it is modelled by the tagged union
`Bound`.  Fallible operations return `Except Err _` where `Err` names the
Python exception class that would be raised.
-/

instance {ε α : Type} [DecidableEq ε] [DecidableEq α] : DecidableEq (Except ε α) := fun x y =>
  match x, y with
  | .error e, .error f =>
    if h : e = f then .isTrue (by rw [h])
    else .isFalse (fun hh => h (by cases hh; rfl))
  | .error _, .ok _ => .isFalse (fun hh => by cases hh)
  | .ok _, .error _ => .isFalse (fun hh => by cases hh)
  | .ok a, .ok b =>
    if h : a = b then .isTrue (by rw [h])
    else .isFalse (fun hh => h (by cases hh; rfl))

/-- The Python exception classes raised (or caught) by the ranges module. -/
inductive Err where
  | typeError
  | valueError
  | indexError
  | overflowError
  deriving DecidableEq, Repr

/-- A scalar that is either a finite integer or a floating-point infinity:
the possible values of a range's `stop` (and the inputs accepted for `start`
and `stop` by the `range()` factory before validation). -/
inductive Bound where
  | fin (n : ℤ)
  | pinf
  | ninf
  deriving DecidableEq, Repr

/-- `s > b` for an integer `s` and a bound `b` (Python's `int > float` /
`int > int` comparison, used by `_Range._signed`). -/
def Bound.ltInt (b : Bound) (s : ℤ) : Bool :=
  match b with
  | .fin m => m < s
  | .pinf => false
  | .ninf => true

/-- `b + n` (Python `int`/`float` addition: infinity plus a finite integer
keeps the infinity).  Used by `_Range.__add__`. -/
def Bound.add (b : Bound) (n : ℤ) : Bound :=
  match b with
  | .fin m => .fin (m + n)
  | .pinf => .pinf
  | .ninf => .ninf

/-- `b * n` (Python multiplication).  Used by `_Range.__mul__`.  Python's
`inf * 0` is NaN, which would fail `_Range.__init__`'s assertion; no claim
scales a range with an infinite bound by zero, so that case is mapped to the
same infinity here. -/
def Bound.scale (b : Bound) (n : ℤ) : Bound :=
  match b with
  | .fin m => .fin (m * n)
  | .pinf => if n < 0 then .ninf else .pinf
  | .ninf => if n < 0 then .pinf else .ninf

/-- The `_Pattern` class: an immutable periodic sequence of integers,
holding the tuple `_steps`. -/
structure Pattern where
  steps : List ℤ
  deriving DecidableEq, Repr

/-- `_Pattern.size`: the last step, i.e. `self._steps[-1]`.  Every pattern
built by the module has a non-empty `steps` tuple, so the default is never
used. -/
def Pattern.size (p : Pattern) : ℤ := p.steps.getLastD 1

/-- The search loop of `_Pattern._index`: `for i, candidate in
enumerate(self._steps, 1): if abs(candidate) >= abs(value): return i,
candidate == value`.  The accumulator `i` is the 1-based position of the
head of the remaining list.  Falling off the end is impossible in Python
(the method asserts `abs(value) < abs(self.size)`, so the last candidate
always matches); the `[]` case here is dead code under that invariant. -/
def Pattern.indexGo (value : ℤ) : List ℤ → ℕ → ℕ × Bool
  | [], _ => (0, false)
  | c :: rest, i =>
    if value.natAbs ≤ c.natAbs then (i, c = value) else Pattern.indexGo value rest (i + 1)

/-- `_Pattern._index(value)`: returns `(before, found)` where `before` is the
number of pattern hits in `[0, value)` (for `value` reduced into one period)
and `found` says whether `value` itself is a hit. -/
def Pattern.index (p : Pattern) (value : ℤ) : ℕ × Bool :=
  if value = 0 then (0, true) else Pattern.indexGo value p.steps 1

/-- `_Pattern.__contains__(index)`: `before, found = self._index(index %
self.size); return found`.  Python `%` is floored modulus (`Int.fmod`). -/
def Pattern.contains (p : Pattern) (index : ℤ) : Bool :=
  (p.index (Int.fmod index p.size)).2

/-- `_Pattern.count(distance)`: `q, r = divmod(distance, self.size);
before, found = self._index(r); return q * len(self._steps) + before`. -/
def Pattern.count (p : Pattern) (distance : ℤ) : ℤ :=
  let q := Int.fdiv distance p.size
  let r := Int.fmod distance p.size
  q * p.steps.length + ((p.index r).1 : ℤ)

/-- `_Pattern.__getitem__(index)`: `step_q, step_r = divmod(index - 1,
len(self._steps)); return step_q * self.size + self.steps[step_r]`.
`step_r` lies in `[0, len(steps))`, so the `getD` default is never used
(for the empty tuple Python would raise `ZeroDivisionError`; no constructed
pattern is empty). -/
def Pattern.get (p : Pattern) (index : ℤ) : ℤ :=
  let k : ℤ := p.steps.length
  let q := Int.fdiv (index - 1) k
  let r := Int.fmod (index - 1) k
  q * p.size + p.steps.getD r.toNat 0

/-- `_Pattern.__mul__(scalar)`: a new pattern with every step scaled. -/
def Pattern.mul (p : Pattern) (scalar : ℤ) : Pattern :=
  ⟨p.steps.map (· * scalar)⟩

/-- The `n`-th value yielded by the `_Pattern.__iter__` generator:
`yield 0`, then for `offset` in `count(step=self._steps[-1])`, for `step`
in `self._steps`, `yield offset + step`.  After the initial `0`, the `n`-th
yield (0-based `n`) comes from chunk `n / len(steps)` — whose `offset` is
`(n / len(steps)) * size` — and step `steps[n % len(steps)]`. -/
def Pattern.stream (p : Pattern) : ℕ → ℤ
  | 0 => 0
  | n + 1 => ((n / p.steps.length : ℕ) : ℤ) * p.size + p.steps.getD (n % p.steps.length) 0

/-- The `_Range` class: `start` (a finite integer by the constructors'
validation), `stop` (integer or infinity) and the pattern. -/
structure PRange where
  start : ℤ
  stop : Bound
  pattern : Pattern
  deriving DecidableEq, Repr

/-- The `_Range.steps` property. -/
def PRange.steps (r : PRange) : List ℤ := r.pattern.steps

/-- `_Range._signed(value)`: `-value if self.start > self.stop else value`. -/
def PRange.signed (r : PRange) (value : ℤ) : ℤ :=
  if r.stop.ltInt r.start then -value else value

/-- `abs(self.start - self.stop)` (an integer, or `+inf` when `stop` is
either infinity). -/
def PRange.absDiff (r : PRange) : Bound :=
  match r.stop with
  | .fin m => .fin ((r.start - m).natAbs : ℤ)
  | _ => .pinf

/-- `_Range._in_bounds(value)`: `0 <= value <= abs(self.start - self.stop)`.
Note the inclusive upper bound in the source. -/
def PRange.inBounds (r : PRange) (value : ℤ) : Bool :=
  decide (0 ≤ value) && match r.absDiff with
                        | .fin m => decide (value ≤ m)
                        | .pinf => true
                        | .ninf => false

/-- `_Range.__len__`: raises `ValueError` when `stop` is a float (an
infinity); otherwise `self._pattern.count(self.stop - self.start)`. -/
def PRange.len (r : PRange) : Except Err ℤ :=
  match r.stop with
  | .fin m => .ok (r.pattern.count (m - r.start))
  | _ => .error .valueError

/-- The body of `_Range.__contains__` once `value` has been exactly
converted to the integer `v`: `distance = self._signed(value - self.start);
if not self._in_bounds(distance): return False; return distance in
self._pattern`. -/
def PRange.containsInt (r : PRange) (v : ℤ) : Bool :=
  let distance := r.signed (v - r.start)
  if ¬ r.inBounds distance then false else r.pattern.contains distance

/-- `_Range.__getitem__(item)` for an integer `item` (slices are
unimplemented in the source): `distance = self._pattern[item]; if not
self._in_bounds(distance): raise IndexError; return self.start +
self._signed(distance)`. -/
def PRange.get (r : PRange) (item : ℤ) : Except Err ℤ :=
  let distance := r.pattern.get item
  if ¬ r.inBounds distance then .error .indexError
  else .ok (r.start + r.signed distance)

/-- The list materialized by `_Range.__iter__` when `stop` is finite:
`limit = abs(self.start - self.stop); for i in self._pattern: if abs(i) >=
limit: return; yield self.start + i`.  The generator walks the pattern
stream and stops at the first value with `abs(i) >= limit`.  Every
constructible pattern satisfies `n ≤ |stream n|` (lemma `stream_natAbs_ge`
below), so the first such value appears at index at most `limit`; a prefix
of length `limit + 1` of the stream therefore contains the stopping point,
and `takeWhile` cuts exactly where the generator stops.  When `stop` is an
infinity the generator never stops; no claim materializes such a range, and
the result is `[]` here. -/
def PRange.toList (r : PRange) : List ℤ :=
  match r.stop with
  | .fin m =>
    let limit := (r.start - m).natAbs
    ((((List.range (limit + 1)).map r.pattern.stream).takeWhile
        (fun i => i.natAbs < limit)).map (fun i => r.start + i))
  | _ => []

/-- `_Range.__add__(scalar)` (also `shift`): translate both endpoints,
keeping the pattern object. -/
def PRange.add (r : PRange) (scalar : ℤ) : PRange :=
  ⟨r.start + scalar, r.stop.add scalar, r.pattern⟩

/-- `_Range.__sub__(scalar)`: `self + (-scalar)`. -/
def PRange.sub (r : PRange) (scalar : ℤ) : PRange :=
  r.add (-scalar)

/-- `_Range.__mul__(scalar)` (also `scale`): scale both endpoints and the
pattern. -/
def PRange.mul (r : PRange) (scalar : ℤ) : PRange :=
  ⟨r.start * scalar, r.stop.scale scalar, r.pattern.mul scalar⟩

/-- `_Range.__neg__`: `self * -1`. -/
def PRange.neg (r : PRange) : PRange :=
  r.mul (-1)

/-- The consecutive-pair validation in `range()`: `all(((y - x) *
step_direction) > 0 for x, y in zip(steps, steps[1:]))`. -/
def stepsMonotone (direction : ℤ) : List ℤ → Bool
  | [] => true
  | [_] => true
  | x :: y :: rest => (0 < (y - x) * direction) && stepsMonotone direction (y :: rest)

/-- The module-level `range(start, stop, *steps)` factory for the three-or-
more-argument form (the claims only exercise this form; with fewer
arguments the source fills in `start = 0`, `stop = 0` and `steps = (1,)`).
`start` and `stop` arrive as `Bound`s because the factory accepts integers
and float infinities before validating; other Python objects (e.g. the
float `3.3`, or non-integer steps) already fail the `isinstance` checks and
are outside this model.  Checks appear in source order:
`start` must be an `int` (TypeError), `stop` may be an `int` or an infinity
(always true for a `Bound`), steps must be non-zero (ValueError) and
direction-consistent (ValueError); an empty steps tuple cannot be produced
by the Python call syntax (`steps[0]` would raise IndexError).  Finally an
empty interval is normalized: if the step direction disagrees with the
range direction, `stop` is replaced by `start`. -/
def mkRange (start stop : Bound) (steps : List ℤ) : Except Err PRange :=
  match start with
  | .pinf => .error .typeError
  | .ninf => .error .typeError
  | .fin s =>
    if 0 ∈ steps then .error .valueError
    else
      match steps with
      | [] => .error .indexError
      | s0 :: _ =>
        let stepDirection : ℤ := if s0 < 0 then -1 else 1
        if ¬ stepsMonotone stepDirection steps then .error .valueError
        else
          -- `range_direction = -1 if stop < start else 1`
          let rangeDirection : ℤ := if stop.ltInt s then -1 else 1
          let stop' := if stepDirection ≠ rangeDirection then .fin s else stop
          .ok ⟨s, stop', ⟨steps⟩⟩

/-- A Python value passed to `_Range.__contains__`.  Integers are exact;
a finite float is an exact rational number (every IEEE double is one), and
the special floats and `None` are singled out because `int()` treats them
specially.  This covers the input classes the membership test
distinguishes. -/
inductive PyVal where
  | vInt (n : ℤ)
  | vFloat (q : ℚ)
  | vFloatInf
  | vFloatNegInf
  | vFloatNaN
  | vNone
  deriving DecidableEq, Repr

/-- Python's `int(value)` conversion as used by `_Range.__contains__`:
truncation toward zero for finite floats, `OverflowError` for the float
infinities, `ValueError` for NaN, `TypeError` for `None`. -/
def pyToInt : PyVal → Except Err ℤ
  | .vInt n => .ok n
  | .vFloat q => .ok (Int.tdiv q.num q.den)
  | .vFloatInf => .error .overflowError
  | .vFloatNegInf => .error .overflowError
  | .vFloatNaN => .error .valueError
  | .vNone => .error .typeError

/-- Python's `as_int == value` comparison in `_Range.__contains__` (only
reached after `int(value)` succeeded). -/
def pyEqInt (n : ℤ) : PyVal → Bool
  | .vInt m => n = m
  | .vFloat q => (n : ℚ) = q
  | _ => false

/-- The full `_Range.__contains__(value)`: `try: as_int = int(value) except
(ValueError, TypeError): return False; if as_int != value: return False`,
then the integer membership test (`value` equals `as_int` exactly at that
point, so the integer is used).  Errors other than `ValueError` and
`TypeError` — notably the `OverflowError` from `int(float('inf'))` — are
not caught and propagate. -/
def PRange.containsVal (r : PRange) (value : PyVal) : Except Err Bool :=
  match pyToInt value with
  | .error .valueError => .ok false
  | .error .typeError => .ok false
  | .error e => .error e
  | .ok n => if ¬ pyEqInt n value then .ok false else .ok (r.containsInt n)

/-- Manual fixed-stride counting `start, start + step, start + 2 * step, ...`
taking values strictly before `stop` in the direction of travel (stop
exclusive): the reference list of claim C2. -/
def strideList (start stop step : ℤ) : List ℤ :=
  if 0 < step ∧ start < stop then start :: strideList (start + step) stop step
  else if step < 0 ∧ stop < start then start :: strideList (start + step) stop step
  else []
termination_by (if 0 < step then stop - start else start - stop).toNat
decreasing_by
  all_goals (split_ifs <;> omega)

/-- Modelled from the spec: `from_bitmask` is absent from
`src/peptides/ranges/__init__.py` (only step tuples are accepted there);
spec section 4.2 describes it.  Parses a periodic 0/1 mask: any character
other than `0`/`1` is a ValueError ("invalid pattern string"); a mask with
no `1` is a ValueError ("pattern cannot be empty"); otherwise the mask is
rotated so the first `1` becomes offset 0 and the result is the rotation
amount together with the step sequence of the rotated mask (the ascending
positive positions of its `1` bits, ending with the period length). -/
def fromBitmask (bits : List Char) : Except Err (ℕ × List ℤ) :=
  if ¬ bits.all (fun c => c = '0' ∨ c = '1') then .error .valueError
  else
    match bits.findIdx? (· = '1') with
    | none => .error .valueError
    | some rot =>
      let rotated := bits.drop rot ++ bits.take rot
      let period := bits.length
      let ones := (List.range period).filter (fun i => rotated.getD i '0' = '1')
      .ok (rot, ((ones.filter (fun i => 0 < i)).map (fun i => (i : ℤ))) ++ [(period : ℤ)])

/-- Modelled from the spec: the `range(start, stop, bitmask=...)` front end
(spec sections 4.2 and 4.3) — build the pattern from the bitmask and fold
the rotation amount into `start` as the offset correction, then construct
the range as usual. -/
def mkRangeBitmask (start : ℤ) (stop : Bound) (bits : List Char) : Except Err PRange :=
  match fromBitmask bits with
  | .error e => .error e
  | .ok (rot, steps) => mkRange (.fin (start + rot)) stop steps

/-- A valid ascending step tuple: non-empty, strictly increasing, all
positive (the class invariant documented on `_Pattern.__init__`). -/
def Ascending (l : List ℤ) : Prop :=
  l ≠ [] ∧ List.Chain' (fun x y => x < y) l ∧ ∀ x ∈ l, 0 < x

/-- A valid descending step tuple: non-empty, strictly decreasing, all
negative. -/
def Descending (l : List ℤ) : Prop :=
  l ≠ [] ∧ List.Chain' (fun x y => y < x) l ∧ ∀ x ∈ l, x < 0

/-! ## Theorems -/

/-- C1: for `r = range(0, 10, 1)` and `v = 10` the distance `(v - start) *
direction` equals `|start - stop| = 10`, which lies outside the half-open
interval `[0, 10)`, so the claim says `10 not in r`; the code's bounds
check `0 <= distance <= abs(start - stop)` is inclusive and the pattern
reduces `10 % 1` to a hit, so the code returns `True` — even though
`len(r) = 10` and iteration stops at `9`. -/
theorem c1_contains_includes_stop :
  mkRange (.fin 0) (.fin 10) [1] = .ok ⟨0, .fin 10, ⟨[1]⟩⟩ ∧
  PRange.len ⟨0, .fin 10, ⟨[1]⟩⟩ = .ok 10 ∧
  PRange.toList ⟨0, .fin 10, ⟨[1]⟩⟩ = [0, 1, 2, 3, 4, 5, 6, 7, 8, 9] ∧
  PRange.containsInt ⟨0, .fin 10, ⟨[1]⟩⟩ 10 = true := by decide

/-- C4: two violations of "`index(i)` raises IndexError exactly when `i` is
outside `[0, length())`".  For the descending range `range(3, -101, -7)` of
length 15, `r[1]` raises IndexError (the raw pattern offset `-7` fails the
`0 <= distance` half of the bounds check) although `1 ∈ [0, 15)`; and for
`range(0, 10, 1)` of length 10, `r[10]` returns `10` without raising
although `10 ∉ [0, 10)` (the inclusive upper bound again).  A third
divergence: a range with infinite `stop` supports indexing
(`range(0, inf)[5]` returns 5) instead of raising. -/
theorem c4_getitem_bounds_mismatch :
  mkRange (.fin 3) (.fin (-101)) [-7] = .ok ⟨3, .fin (-101), ⟨[-7]⟩⟩ ∧
  PRange.len ⟨3, .fin (-101), ⟨[-7]⟩⟩ = .ok 15 ∧
  PRange.get ⟨3, .fin (-101), ⟨[-7]⟩⟩ 1 = .error .indexError ∧
  mkRange (.fin 0) (.fin 10) [1] = .ok ⟨0, .fin 10, ⟨[1]⟩⟩ ∧
  PRange.len ⟨0, .fin 10, ⟨[1]⟩⟩ = .ok 10 ∧
  PRange.get ⟨0, .fin 10, ⟨[1]⟩⟩ 10 = .ok 10 ∧
  mkRange (.fin 0) .pinf [1] = .ok ⟨0, .pinf, ⟨[1]⟩⟩ ∧
  PRange.get ⟨0, .pinf, ⟨[1]⟩⟩ 5 = .ok 5 := by decide

/-- C5 (counterexample): `range(-Infinity, +Infinity, 1)` is not
constructible — the factory's first validation (`start` must be an `int`)
raises TypeError, so the claimed degenerate all-integers range cannot be
built at all. -/
theorem c5_all_integers_not_constructible :
  mkRange .ninf .pinf [1] = .error .typeError := rfl

/-- C5 (amended): calling `range(-Infinity, +Infinity, 1)` raises a
TypeError-class error ("start must be an integer"), so no all-integers
range exists; `length()` does raise on every range whose `stop` is an
infinity. -/
theorem c5_amended_unbounded :
  mkRange .ninf .pinf [1] = .error .typeError ∧
  (∀ r : PRange, r.stop = .pinf → PRange.len r = .error .valueError) ∧
  (∀ r : PRange, r.stop = .ninf → PRange.len r = .error .valueError) := by
  refine ⟨rfl, ?_, ?_⟩ <;> (intro r h; unfold PRange.len; rw [h])

/-- Witness for `c5_amended_unbounded` at `range(0, +Infinity, 1)`. -/
theorem c5_amended_unbounded_witness :
  PRange.len ⟨0, .pinf, ⟨[1]⟩⟩ = .error .valueError :=
  c5_amended_unbounded.2.1 ⟨0, .pinf, ⟨[1]⟩⟩ rfl

/-- C6 (counterexample): building a range whose start is `+Infinity` fails
with TypeError ("start must be an integer"), not with the claimed
ValueError-class error — the same `isinstance(start, int)` check rejects
every non-integer start, and the repository's own tests expect TypeError
for `(inf, 0, -1)`. -/
theorem c6_start_pinf_not_valueError :
  mkRange .pinf (.fin 0) [-1] = .error .typeError ∧
  mkRange .pinf (.fin 0) [-1] ≠ .error .valueError := by decide

/-- C6 (amended): attempting to build a range whose start is
`PositiveInfinity` always fails, with a TypeError-class error ("start must
be an integer"); no range whose start is `+Infinity` is ever
constructed. -/
theorem c6_amended_start_pinf_typeError (stop : Bound) (steps : List ℤ) :
  mkRange .pinf stop steps = .error .typeError := rfl

/-- C9 (spec-modelled, confirmed): a pattern built from the bitmask string
`"111"` (no rotation needed, steps `(1, 2, 3)`, period 3) produces a range
with exactly the same element list as `range(0, 10, 1)`. -/
theorem c9_bitmask_111_equiv :
  mkRangeBitmask 0 (.fin 10) ['1', '1', '1'] = .ok ⟨0, .fin 10, ⟨[1, 2, 3]⟩⟩ ∧
  mkRange (.fin 0) (.fin 10) [1] = .ok ⟨0, .fin 10, ⟨[1]⟩⟩ ∧
  PRange.toList ⟨0, .fin 10, ⟨[1, 2, 3]⟩⟩ = PRange.toList ⟨0, .fin 10, ⟨[1]⟩⟩ ∧
  PRange.toList ⟨0, .fin 10, ⟨[1]⟩⟩ = [0, 1, 2, 3, 4, 5, 6, 7, 8, 9] := by decide

/-- C3 (counterexample): `contains(float('inf'))` raises: `int(float('inf'))`
raises OverflowError, which the `except (ValueError, TypeError)` clause does
not catch. -/
theorem c3_contains_inf_raises :
  PRange.containsVal ⟨0, .fin 10, ⟨[1]⟩⟩ .vFloatInf = .error .overflowError := rfl

/-- C3 (amended): membership never raises and yields false for any input
whose exact integer interpretation fails with ValueError or TypeError (NaN,
`None`, ...) or whose integer conversion is inexact (non-whole floats) —
except for the float infinities, whose conversion raises an uncaught
OverflowError that propagates out of `contains`. -/
theorem c3_amended_contains_total (r : PRange) (v : PyVal) :
  (v = .vFloatInf ∨ v = .vFloatNegInf → r.containsVal v = .error .overflowError) ∧
  (v ≠ .vFloatInf → v ≠ .vFloatNegInf → ∃ b, r.containsVal v = .ok b) ∧
  (∀ q : ℚ, v = .vFloat q → q.den ≠ 1 → r.containsVal v = .ok false) ∧
  (v = .vFloatNaN ∨ v = .vNone → r.containsVal v = .ok false) := by
  refine ⟨?_, ?_, ?_, ?_⟩
  · rintro (rfl | rfl) <;> rfl
  · intro h1 h2
    cases v with
    | vInt n =>
      refine ⟨r.containsInt n, ?_⟩
      simp [PRange.containsVal, pyToInt, pyEqInt]
    | vFloat q =>
      by_cases hc : pyEqInt (Int.tdiv q.num q.den) (.vFloat q)
      · refine ⟨r.containsInt (Int.tdiv q.num q.den), ?_⟩
        simp [PRange.containsVal, pyToInt, hc]
      · exact ⟨false, by simp [PRange.containsVal, pyToInt, hc]⟩
    | vFloatInf => exact absurd rfl h1
    | vFloatNegInf => exact absurd rfl h2
    | vFloatNaN => exact ⟨false, rfl⟩
    | vNone => exact ⟨false, rfl⟩
  · rintro q rfl hden
    have hne : pyEqInt (Int.tdiv q.num q.den) (.vFloat q) = false := by
      simp only [pyEqInt, decide_eq_false_iff_not]
      intro h
      exact hden (by rw [← h]; exact Rat.den_intCast _)
    simp [PRange.containsVal, pyToInt, hne]
  · rintro (rfl | rfl) <;> rfl

/-- Witness for `c3_amended_contains_total`: the non-whole float `7/2`, the
float NaN and `None` are all rejected with `False`, without raising. -/
theorem c3_amended_contains_total_witness :
  (∃ b, PRange.containsVal ⟨0, .fin 10, ⟨[1]⟩⟩ (.vFloat (mkRat 7 2)) = .ok b) ∧
  PRange.containsVal ⟨0, .fin 10, ⟨[1]⟩⟩ (.vFloat (mkRat 7 2)) = .ok false ∧
  PRange.containsVal ⟨0, .fin 10, ⟨[1]⟩⟩ .vFloatNaN = .ok false ∧
  PRange.containsVal ⟨0, .fin 10, ⟨[1]⟩⟩ .vNone = .ok false :=
  ⟨(c3_amended_contains_total ⟨0, .fin 10, ⟨[1]⟩⟩ (.vFloat (mkRat 7 2))).2.1
      (by decide) (by decide),
   (c3_amended_contains_total ⟨0, .fin 10, ⟨[1]⟩⟩ (.vFloat (mkRat 7 2))).2.2.1
      (mkRat 7 2) rfl (by decide),
   (c3_amended_contains_total ⟨0, .fin 10, ⟨[1]⟩⟩ .vFloatNaN).2.2.2 (Or.inl rfl),
   (c3_amended_contains_total ⟨0, .fin 10, ⟨[1]⟩⟩ .vNone).2.2.2 (Or.inr rfl)⟩

/-- C7: a range constructed with `start == stop == a` (any valid pattern,
ascending or descending) has length 0 and iterates to the empty list. -/
theorem c7_empty_when_start_eq_stop (a : ℤ) (steps : List ℤ) (r : PRange)
  (h : mkRange (.fin a) (.fin a) steps = .ok r) :
  PRange.len r = .ok 0 ∧ PRange.toList r = [] := by
  have hr : r = ⟨a, .fin a, ⟨steps⟩⟩ := by
    simp only [mkRange, ite_self] at h
    repeat' split at h
    all_goals first
      | exact Except.noConfusion h
      | (injection h with h2; exact h2.symm)
  subst hr
  constructor
  · simp [PRange.len, Pattern.count, Pattern.index, Int.zero_fdiv, Int.zero_fmod,
          sub_self]
  · simp [PRange.toList, Pattern.stream, List.range_succ_eq_map, List.takeWhile,
          sub_self]

/-- Witness for `c7_empty_when_start_eq_stop` at `range(4, 4, 1, 2, 4)`. -/
theorem c7_empty_witness :
  mkRange (.fin 4) (.fin 4) [1, 2, 4] = .ok ⟨4, .fin 4, ⟨[1, 2, 4]⟩⟩ ∧
  PRange.len ⟨4, .fin 4, ⟨[1, 2, 4]⟩⟩ = .ok 0 ∧
  PRange.toList ⟨4, .fin 4, ⟨[1, 2, 4]⟩⟩ = [] :=
  ⟨by decide, c7_empty_when_start_eq_stop 4 [1, 2, 4] _ (by decide)⟩

/-- C8: for every constructed range, `shift(0)`, `scale(1)` and double
negation are identities under the structural equality that `_Range.__eq__`
implements (equal `start`, `stop` and `steps`). -/
theorem c8_identity_laws (start stop : Bound) (steps : List ℤ) (r : PRange)
  (_h : mkRange start stop steps = .ok r) :
  r.add 0 = r ∧ r.mul 1 = r ∧ r.neg.neg = r := by
  clear _h
  obtain ⟨s, b, ⟨l⟩⟩ := r
  have hneg : ∀ x : ℤ, x * -1 * -1 = x := fun x => by ring
  refine ⟨?_, ?_, ?_⟩
  · cases b <;> simp [PRange.add, Bound.add]
  · cases b <;>
      simp [PRange.mul, Bound.scale, Pattern.mul, List.map_id'']
  · cases b <;>
      simp [PRange.neg, PRange.mul, Bound.scale, Pattern.mul, List.map_map,
            Function.comp, hneg, List.map_id'']

/-- Witness for `c8_identity_laws` at `range(1, 10, 3)`. -/
theorem c8_identity_laws_witness :
  PRange.add ⟨1, .fin 10, ⟨[3]⟩⟩ 0 = (⟨1, .fin 10, ⟨[3]⟩⟩ : PRange) ∧
  PRange.mul ⟨1, .fin 10, ⟨[3]⟩⟩ 1 = (⟨1, .fin 10, ⟨[3]⟩⟩ : PRange) ∧
  PRange.neg (PRange.neg ⟨1, .fin 10, ⟨[3]⟩⟩) = (⟨1, .fin 10, ⟨[3]⟩⟩ : PRange) :=
  c8_identity_laws (.fin 1) (.fin 10) [3] ⟨1, .fin 10, ⟨[3]⟩⟩ (by decide)

/-! ### Floored division mirror lemmas -/

theorem fdiv_neg_neg (a b : ℤ) : Int.fdiv (-a) (-b) = Int.fdiv a b := by
  have h1 : ∀ m : ℕ, -(Int.ofNat (m + 1)) = Int.negSucc m := fun _ => rfl
  have h2 : ∀ m : ℕ, -(Int.negSucc m) = Int.ofNat (m + 1) := fun _ => rfl
  have h0 : -(Int.ofNat 0) = Int.ofNat 0 := rfl
  rcases a with (_ | m) | m <;> rcases b with (_ | n) | n <;>
    simp only [h0, h1, h2, Int.fdiv] <;>
    simp [Nat.div_zero]

theorem fmod_neg_neg (a b : ℤ) : Int.fmod (-a) (-b) = -(Int.fmod a b) := by
  have h1 : ∀ m : ℕ, -(Int.ofNat (m + 1)) = Int.negSucc m := fun _ => rfl
  have h2 : ∀ m : ℕ, -(Int.negSucc m) = Int.ofNat (m + 1) := fun _ => rfl
  have h0 : -(Int.ofNat 0) = Int.ofNat 0 := rfl
  rcases a with (_ | m) | m <;> rcases b with (_ | n) | n <;>
    (try simp only [h0, h1, h2, neg_zero]) <;>
    (try simp only [Int.fmod]) <;>
    (try simp only [Int.subNatNat_eq_coe, Int.ofNat_eq_coe, Nat.succ_eq_add_one,
      Nat.mod_zero]) <;>
    omega

/-! ### Validation facts about the factory -/

theorem stepsMonotone_chain (d : ℤ) (l : List ℤ) (h : stepsMonotone d l = true) :
    List.Chain' (fun x y => 0 < (y - x) * d) l := by
  induction l with
  | nil => simp
  | cons x tail ih =>
    cases tail with
    | nil => simp
    | cons y rest =>
      rw [stepsMonotone, Bool.and_eq_true] at h
      rw [List.chain'_cons]
      exact ⟨by simpa using h.1, ih h.2⟩

theorem asc_valid (s0 : ℤ) (tail : List ℤ) (h0 : (0 : ℤ) ∉ s0 :: tail)
    (hs0 : ¬ s0 < 0) (hm : stepsMonotone 1 (s0 :: tail) = true) :
    Ascending (s0 :: tail) := by
  have hchain : List.Chain' (fun x y : ℤ => x < y) (s0 :: tail) :=
    (stepsMonotone_chain 1 _ hm).imp (fun hab => by omega)
  have hs0' : 0 < s0 := by
    have : (0 : ℤ) ≠ s0 := fun he => h0 (he ▸ List.mem_cons_self _ _)
    omega
  have hp : List.Pairwise (fun x y : ℤ => x < y) (s0 :: tail) :=
    List.chain'_iff_pairwise.mp hchain
  refine ⟨by simp, hchain, ?_⟩
  intro x hx
  rcases List.mem_cons.mp hx with rfl | hx'
  · exact hs0'
  · exact lt_trans hs0' (List.rel_of_pairwise_cons hp hx')

theorem desc_valid (s0 : ℤ) (tail : List ℤ) (h0 : (0 : ℤ) ∉ s0 :: tail)
    (hs0 : s0 < 0) (hm : stepsMonotone (-1) (s0 :: tail) = true) :
    Descending (s0 :: tail) := by
  have hchain : List.Chain' (fun x y : ℤ => y < x) (s0 :: tail) :=
    (stepsMonotone_chain (-1) _ hm).imp (fun hab => by omega)
  have hp : List.Pairwise (fun x y : ℤ => y < x) (s0 :: tail) :=
    List.chain'_iff_pairwise.mp hchain
  refine ⟨by simp, hchain, ?_⟩
  intro x hx
  rcases List.mem_cons.mp hx with rfl | hx'
  · exact hs0
  · exact lt_trans (List.rel_of_pairwise_cons hp hx') hs0

/-- Inverting a successful `range(start, stop, *steps)` call with finite
`start` and `stop`: the result keeps `start` and `steps`, its `stop` is the
original one or (after empty-interval normalization) `start`, and the step
tuple is a valid ascending or descending sequence pointing toward `stop`. -/
theorem mkRange_fin_ok (s t : ℤ) (steps : List ℤ) (r : PRange)
    (h : mkRange (.fin s) (.fin t) steps = .ok r) :
    ∃ m : ℤ, r = ⟨s, .fin m, ⟨steps⟩⟩ ∧ (m = t ∨ m = s) ∧
      ((Ascending steps ∧ s ≤ m) ∨ (Descending steps ∧ m ≤ s)) := by
  simp only [mkRange, Bound.ltInt] at h
  repeat' split at h
  all_goals try exact Except.noConfusion h
  all_goals injection h with h2
  all_goals subst h2
  all_goals simp_all
  all_goals
    rename_i steps0 s0 tail hmem hsgn hmono hcmp
  all_goals
    have h0 : (0 : ℤ) ∉ s0 :: tail := by
      simp only [List.mem_cons, not_or]; exact hmem
  all_goals
    first
      | exact Or.inl (asc_valid _ _ h0 (by omega) hmono)
      | exact Or.inr (desc_valid _ _ h0 hsgn hmono)
      | exact Or.inr ⟨desc_valid _ _ h0 hsgn hmono, by omega⟩

/-! ### The pattern stream -/

theorem getLastD_eq_getD (l : List ℤ) (d : ℤ) (hl : l ≠ []) :
    l.getLastD d = l.getD (l.length - 1) 0 := by
  induction l generalizing d with
  | nil => exact absurd rfl hl
  | cons x tail ih =>
    cases tail with
    | nil => rfl
    | cons y rest =>
      rw [List.getLastD_cons, ih x (by simp)]
      simp

theorem getLastD_mem (l : List ℤ) (d : ℤ) (hl : l ≠ []) : l.getLastD d ∈ l := by
  induction l generalizing d with
  | nil => exact absurd rfl hl
  | cons x tail ih =>
    cases tail with
    | nil => simp [List.getLastD]
    | cons y rest =>
      rw [List.getLastD_cons]
      exact List.mem_cons_of_mem _ (ih x (by simp))

theorem size_pos_of_asc (l : List ℤ) (h : Ascending l) : 0 < Pattern.size ⟨l⟩ :=
  h.2.2 _ (getLastD_mem l 1 h.1)

theorem pairwise_getD_lt (l : List ℤ)
    (hchain : List.Chain' (fun x y : ℤ => x < y) l) (i j : ℕ)
    (hij : i < j) (hj : j < l.length) : l.getD i 0 < l.getD j 0 := by
  have hp := List.chain'_iff_pairwise.mp hchain
  have hres := List.pairwise_iff_get.mp hp ⟨i, lt_trans hij hj⟩ ⟨j, hj⟩ hij
  rw [List.getD_eq_getElem l 0 (lt_trans hij hj), List.getD_eq_getElem l 0 hj]
  simpa [List.get_eq_getElem] using hres

theorem getD_mem_of_lt (l : List ℤ) (j : ℕ) (hj : j < l.length) :
    l.getD j 0 ∈ l := by
  rw [List.getD_eq_getElem l 0 hj]
  exact List.getElem_mem hj

theorem getD_pos_of_asc (l : List ℤ) (h : Ascending l) (j : ℕ)
    (hj : j < l.length) : 0 < l.getD j 0 :=
  h.2.2 _ (getD_mem_of_lt l j hj)

theorem stream_succ_eq (l : List ℤ) (q j : ℕ) (hj : j < l.length) :
    Pattern.stream ⟨l⟩ (j + q * l.length + 1) =
      (q : ℤ) * Pattern.size ⟨l⟩ + l.getD j 0 := by
  show (((j + q * l.length) / l.length : ℕ) : ℤ) * Pattern.size ⟨l⟩ +
      l.getD ((j + q * l.length) % l.length) 0 = _
  have hk : 0 < l.length := lt_of_le_of_lt (Nat.zero_le j) hj
  rw [Nat.add_mul_div_right j q hk, Nat.add_mul_mod_self_right,
      Nat.div_eq_of_lt hj, Nat.mod_eq_of_lt hj]
  push_cast
  ring

theorem stream_mul_eq (l : List ℤ) (hl : l ≠ []) (q : ℕ) :
    Pattern.stream ⟨l⟩ (q * l.length) = (q : ℤ) * Pattern.size ⟨l⟩ := by
  cases q with
  | zero => simp [Pattern.stream]
  | succ q' =>
    have hk : 0 < l.length := List.length_pos.mpr hl
    rw [show (q' + 1) * l.length = (l.length - 1) + q' * l.length + 1 from by
          rw [Nat.succ_mul]; omega,
        stream_succ_eq l q' (l.length - 1) (by omega), ← getLastD_eq_getD l 1 hl]
    show (q' : ℤ) * Pattern.size ⟨l⟩ + Pattern.size ⟨l⟩ = _
    push_cast
    ring

theorem stream_strictMono_of_asc (l : List ℤ) (h : Ascending l) :
    StrictMono (Pattern.stream ⟨l⟩) := by
  have hk : 0 < l.length := List.length_pos.mpr h.1
  apply strictMono_nat_of_lt_succ
  intro n
  cases n with
  | zero =>
    show (0 : ℤ) < ((0 / l.length : ℕ) : ℤ) * _ + l.getD (0 % l.length) 0
    rw [Nat.zero_div, Nat.zero_mod]
    simpa using getD_pos_of_asc l h 0 hk
  | succ m =>
    have hjk : m % l.length < l.length := Nat.mod_lt _ hk
    rcases Nat.lt_or_ge (m % l.length + 1) l.length with hj | hj
    · rw [show m + 1 = m % l.length + (m / l.length) * l.length + 1 from by
            rw [Nat.mod_add_div']]
      rw [show m % l.length + m / l.length * l.length + 1 + 1 =
            (m % l.length + 1) + m / l.length * l.length + 1 from by omega]
      rw [stream_succ_eq l _ _ hjk, stream_succ_eq l _ _ hj]
      have := pairwise_getD_lt l h.2.1 (m % l.length) (m % l.length + 1)
        (by omega) hj
      omega
    · rw [show m + 1 = m % l.length + (m / l.length) * l.length + 1 from by
            rw [Nat.mod_add_div']]
      rw [show m % l.length + m / l.length * l.length + 1 + 1 =
            0 + (m / l.length + 1) * l.length + 1 from by rw [Nat.succ_mul]; omega]
      rw [stream_succ_eq l _ _ hjk, stream_succ_eq l _ 0 hk]
      have hlast : l.getD (m % l.length) 0 = Pattern.size ⟨l⟩ := by
        rw [show m % l.length = l.length - 1 from by omega,
            ← getLastD_eq_getD l 1 h.1]
        rfl
      have h0 : 0 < l.getD 0 0 := getD_pos_of_asc l h 0 hk
      have hdistrib : (((m / l.length : ℕ) : ℤ) + 1) * Pattern.size ⟨l⟩ =
          ((m / l.length : ℕ) : ℤ) * Pattern.size ⟨l⟩ + Pattern.size ⟨l⟩ := by ring
      have hcast : ((m / l.length + 1 : ℕ) : ℤ) = ((m / l.length : ℕ) : ℤ) + 1 := by
        push_cast
        ring
      rw [hlast, hcast, hdistrib]
      linarith

theorem stream_nonneg_of_asc (l : List ℤ) (h : Ascending l) (n : ℕ) :
    0 ≤ Pattern.stream ⟨l⟩ n := by
  have h0 : Pattern.stream ⟨l⟩ 0 = 0 := rfl
  rcases Nat.eq_zero_or_pos n with rfl | hn
  · simp [h0]
  · have := (stream_strictMono_of_asc l h).monotone (Nat.zero_le n)
    omega

theorem stream_ge_of_asc (l : List ℤ) (h : Ascending l) (n : ℕ) :
    (n : ℤ) ≤ Pattern.stream ⟨l⟩ n := by
  induction n with
  | zero => simp [Pattern.stream]
  | succ m ih =>
    have hlt := stream_strictMono_of_asc l h (Nat.lt_succ_self m)
    simp only [Nat.succ_eq_add_one] at hlt ⊢
    push_cast
    omega

/-! ### The `_index` search and `count` -/

theorem indexGo_spec (v : ℤ) (m : List ℤ) (i : ℕ)
    (hex : ∃ c ∈ m, v.natAbs ≤ c.natAbs) :
    ∃ j : ℕ, j < m.length ∧
      Pattern.indexGo v m i = (i + j, decide (m.getD j 0 = v)) ∧
      v.natAbs ≤ (m.getD j 0).natAbs ∧
      ∀ t, t < j → (m.getD t 0).natAbs < v.natAbs := by
  induction m generalizing i with
  | nil =>
    obtain ⟨c, hc, _⟩ := hex
    exact absurd hc (List.not_mem_nil c)
  | cons c rest ih =>
    by_cases hc : v.natAbs ≤ c.natAbs
    · refine ⟨0, by simp, ?_, by simpa using hc, by omega⟩
      simp [Pattern.indexGo, hc]
    · obtain ⟨c', hc', hvc'⟩ := hex
      have hex' : ∃ c'' ∈ rest, v.natAbs ≤ c''.natAbs := by
        rcases List.mem_cons.mp hc' with rfl | hmem
        · exact absurd hvc' hc
        · exact ⟨c', hmem, hvc'⟩
      obtain ⟨j, hj, heq, hge, hlt⟩ := ih (i + 1) hex'
      refine ⟨j + 1, by simpa using hj, ?_, by simpa using hge, ?_⟩
      · rw [Pattern.indexGo, if_neg hc, heq]
        refine Prod.ext ?_ ?_
        · simp; omega
        · simp [List.getD_cons_succ]
      · intro t ht
        cases t with
        | zero => simpa using Nat.lt_of_not_le hc
        | succ t' => simpa [List.getD_cons_succ] using hlt t' (by omega)

/-- `count` on an ascending pattern counts exactly the stream values below
the distance: there is an `N ≥ 0` with `count = N` and
`stream n < D ↔ n < N`. -/
theorem count_spec_asc (l : List ℤ) (h : Ascending l) (D : ℤ) (hD : 0 ≤ D) :
    ∃ N : ℕ, Pattern.count ⟨l⟩ D = (N : ℤ) ∧
      ∀ n : ℕ, Pattern.stream ⟨l⟩ n < D ↔ n < N := by
  have hS : 0 < Pattern.size ⟨l⟩ := size_pos_of_asc l h
  have hk : 0 < l.length := List.length_pos.mpr h.1
  have hmono := stream_strictMono_of_asc l h
  set S := Pattern.size ⟨l⟩ with hSdef
  have hfd : Int.fdiv D S = D / S := Int.fdiv_eq_ediv _ (le_of_lt hS)
  have hfm : Int.fmod D S = D % S := Int.fmod_eq_emod _ (le_of_lt hS)
  have hr0 : 0 ≤ D % S := Int.emod_nonneg D (ne_of_gt hS)
  have hrS : D % S < S := Int.emod_lt_of_pos D hS
  have hq0 : 0 ≤ D / S := Int.ediv_nonneg hD (le_of_lt hS)
  have hDqr : D % S + D / S * S = D := by
    have := Int.emod_add_ediv D S
    linarith
  set q := D / S with hqdef
  set r := D % S with hrdef
  by_cases hr : r = 0
  · -- `before = 0`: `count = q * k` and `stream (q*k) = D` exactly.
    have hcount : Pattern.count ⟨l⟩ D = q * l.length := by
      simp [Pattern.count, hfd, hfm, ← hrdef, hr, Pattern.index]
    have hstream : Pattern.stream ⟨l⟩ (q.toNat * l.length) = D := by
      rw [stream_mul_eq l h.1 q.toNat, ← hSdef]
      rw [Int.toNat_of_nonneg hq0]
      omega
    refine ⟨q.toNat * l.length, ?_, ?_⟩
    · rw [hcount]
      push_cast
      rw [Int.toNat_of_nonneg hq0]
    · intro n
      rw [← hstream]
      exact hmono.lt_iff_lt
  · -- `before = 1 + j` for the first step whose value is ≥ r.
    have hex : ∃ c ∈ l, r.natAbs ≤ c.natAbs := by
      refine ⟨l.getLastD 1, getLastD_mem l 1 h.1, ?_⟩
      have : l.getLastD 1 = S := rfl
      omega
    obtain ⟨j, hj, heq, hge, hlt⟩ := indexGo_spec r l 1 hex
    have hgepos : 0 < l.getD j 0 := getD_pos_of_asc l h j hj
    have hger : r ≤ l.getD j 0 := by omega
    have hcount : Pattern.count ⟨l⟩ D = q * l.length + (1 + j : ℕ) := by
      simp [Pattern.count, hfd, hfm, ← hrdef, ← hqdef, Pattern.index, hr, heq]
    refine ⟨q.toNat * l.length + j + 1, ?_, ?_⟩
    · rw [hcount]
      push_cast
      rw [Int.toNat_of_nonneg hq0]
      ring
    · intro n
      have hup : D ≤ Pattern.stream ⟨l⟩ (q.toNat * l.length + j + 1) := by
        rw [show q.toNat * l.length + j + 1 = j + q.toNat * l.length + 1 from by omega,
            stream_succ_eq l q.toNat j hj, ← hSdef, Int.toNat_of_nonneg hq0]
        omega
      have hdown : Pattern.stream ⟨l⟩ (q.toNat * l.length + j) < D := by
        cases j with
        | zero =>
          rw [Nat.add_zero, stream_mul_eq l h.1 q.toNat, ← hSdef,
              Int.toNat_of_nonneg hq0]
          omega
        | succ j' =>
          rw [show q.toNat * l.length + (j' + 1) = j' + q.toNat * l.length + 1 from by
                omega,
              stream_succ_eq l q.toNat j' (by omega), ← hSdef,
              Int.toNat_of_nonneg hq0]
          have hj' := hlt j' (by omega)
          have hj'pos : 0 < l.getD j' 0 := getD_pos_of_asc l h j' (by omega)
          omega
      constructor
      · intro hn
        by_contra hcon
        have : Pattern.stream ⟨l⟩ (q.toNat * l.length + j + 1) ≤ Pattern.stream ⟨l⟩ n :=
          hmono.monotone (by omega)
        omega
      · intro hn
        have : Pattern.stream ⟨l⟩ n ≤ Pattern.stream ⟨l⟩ (q.toNat * l.length + j) :=
          hmono.monotone (by omega)
        omega

/-! ### Mirroring descending patterns to ascending ones -/

theorem asc_of_desc (l : List ℤ) (h : Descending l) :
    Ascending (l.map (fun x => -x)) := by
  obtain ⟨hne, hchain, hneg⟩ := h
  refine ⟨by simpa using hne, ?_, ?_⟩
  · rw [List.chain'_map]
    exact hchain.imp (fun hab => by omega)
  · intro x hx
    obtain ⟨y, hy, rfl⟩ := List.mem_map.mp hx
    have := hneg y hy
    omega

theorem getD_map_neg (l : List ℤ) (n : ℕ) (hn : n < l.length) :
    (l.map (fun x => -x)).getD n 0 = -(l.getD n 0) := by
  rw [List.getD_eq_getElem _ 0 (by simpa using hn), List.getD_eq_getElem l 0 hn,
      List.getElem_map]

theorem size_map_neg (l : List ℤ) (hl : l ≠ []) :
    Pattern.size ⟨l.map (fun x => -x)⟩ = -Pattern.size ⟨l⟩ := by
  have hk : 0 < l.length := List.length_pos.mpr hl
  show (l.map fun x => -x).getLastD 1 = -(l.getLastD 1)
  rw [getLastD_eq_getD _ 1 (by simpa using hl), getLastD_eq_getD l 1 hl,
      List.length_map, getD_map_neg l _ (by omega)]

theorem stream_map_neg (l : List ℤ) (hl : l ≠ []) (n : ℕ) :
    Pattern.stream ⟨l.map (fun x => -x)⟩ n = -(Pattern.stream ⟨l⟩ n) := by
  have hk : 0 < l.length := List.length_pos.mpr hl
  cases n with
  | zero => simp [Pattern.stream]
  | succ m =>
    show (((m / (l.map fun x => -x).length : ℕ)) : ℤ) * Pattern.size ⟨l.map fun x => -x⟩ +
        (l.map fun x => -x).getD (m % (l.map fun x => -x).length) 0 = _
    rw [List.length_map, size_map_neg l hl, getD_map_neg l _ (Nat.mod_lt _ hk)]
    show _ = -(((m / l.length : ℕ) : ℤ) * Pattern.size ⟨l⟩ + l.getD (m % l.length) 0)
    ring

theorem indexGo_map_neg (v : ℤ) (m : List ℤ) (i : ℕ) :
    Pattern.indexGo v (m.map (fun x => -x)) i = Pattern.indexGo (-v) m i := by
  induction m generalizing i with
  | nil => rfl
  | cons c rest ih =>
    show Pattern.indexGo v (-c :: rest.map fun x => -x) i = _
    rw [Pattern.indexGo, Pattern.indexGo]
    have habs : v.natAbs ≤ (-c).natAbs ↔ (-v).natAbs ≤ c.natAbs := by omega
    by_cases hc : (-v).natAbs ≤ c.natAbs
    · rw [if_pos (habs.mpr hc), if_pos hc]
      exact Prod.ext rfl (decide_eq_decide.mpr (by omega))
    · rw [if_neg (fun hh => hc (habs.mp hh)), if_neg hc]
      exact ih (i + 1)

theorem index_map_neg (l : List ℤ) (v : ℤ) :
    Pattern.index ⟨l.map (fun x => -x)⟩ v = Pattern.index ⟨l⟩ (-v) := by
  unfold Pattern.index
  by_cases hv : v = 0
  · subst hv
    simp
  · rw [if_neg hv, if_neg (by omega)]
    exact indexGo_map_neg v l 1

theorem count_map_neg (l : List ℤ) (hl : l ≠ []) (D : ℤ) :
    Pattern.count ⟨l⟩ D = Pattern.count ⟨l.map (fun x => -x)⟩ (-D) := by
  show _ = Int.fdiv (-D) (Pattern.size ⟨l.map fun x => -x⟩) *
      ((l.map fun x => -x).length : ℤ) +
      ((Pattern.index ⟨l.map fun x => -x⟩
        (Int.fmod (-D) (Pattern.size ⟨l.map fun x => -x⟩))).1 : ℤ)
  rw [List.length_map, size_map_neg l hl, index_map_neg, fdiv_neg_neg, fmod_neg_neg,
      neg_neg]
  rfl

theorem count_spec_desc (l : List ℤ) (h : Descending l) (D : ℤ) (hD : D ≤ 0) :
    ∃ N : ℕ, Pattern.count ⟨l⟩ D = (N : ℤ) ∧
      ∀ n : ℕ, D < Pattern.stream ⟨l⟩ n ↔ n < N := by
  obtain ⟨N, hc, hchara⟩ := count_spec_asc _ (asc_of_desc l h) (-D) (by omega)
  refine ⟨N, ?_, ?_⟩
  · rw [count_map_neg l h.1 D]
    exact hc
  · intro n
    rw [← hchara n, stream_map_neg l h.1 n]
    omega

theorem stream_nonpos_of_desc (l : List ℤ) (h : Descending l) (n : ℕ) :
    Pattern.stream ⟨l⟩ n ≤ 0 := by
  have hpos := stream_nonneg_of_asc _ (asc_of_desc l h) n
  rw [stream_map_neg l h.1 n] at hpos
  omega

theorem stream_natAbs_ge (l : List ℤ) (h : Ascending l ∨ Descending l) (n : ℕ) :
    n ≤ (Pattern.stream ⟨l⟩ n).natAbs := by
  rcases h with h | h
  · have h1 := stream_ge_of_asc l h n
    omega
  · have h1 := stream_ge_of_asc _ (asc_of_desc l h) n
    rw [stream_map_neg l h.1 n] at h1
    omega

/-! ### Materialized iteration -/

theorem takeWhile_append_cons (p : ℤ → Bool) (l1 l2 : List ℤ) (x : ℤ)
    (h1 : ∀ a ∈ l1, p a = true) (hx : p x = false) :
    (l1 ++ x :: l2).takeWhile p = l1 := by
  induction l1 with
  | nil => simp [List.takeWhile_cons, hx]
  | cons a rest ih =>
    have ha := h1 a (List.mem_cons_self a rest)
    rw [List.cons_append, List.takeWhile_cons, ha]
    simp only [if_true]
    rw [ih (fun b hb => h1 b (List.mem_cons_of_mem a hb))]

theorem takeWhile_range_map (f : ℕ → ℤ) (p : ℤ → Bool) (N F : ℕ) (hNF : N < F)
    (h1 : ∀ n, n < N → p (f n) = true) (h2 : p (f N) = false) :
    ((List.range F).map f).takeWhile p = (List.range N).map f := by
  have key : ∀ M, List.range (N + (M + 1)) =
      List.range N ++ (N + 0) :: (((List.range M).map Nat.succ).map (N + ·)) := by
    intro M
    rw [List.range_add, List.range_succ_eq_map, List.map_cons]
  have hsplit := key (F - N - 1)
  rw [show N + (F - N - 1 + 1) = F from by omega] at hsplit
  rw [hsplit, List.map_append, List.map_cons]
  refine takeWhile_append_cons p _ _ _ ?_ ?_
  · intro a ha
    obtain ⟨n, hn, rfl⟩ := List.mem_map.mp ha
    exact h1 n (List.mem_range.mp hn)
  · simpa using h2

/-- The list produced by `_Range.__iter__` on a finite, direction-consistent
range is the first `count` stream values shifted by `start` — where `count`
is exactly `_Pattern.count` at the signed distance `stop - start`. -/
theorem toList_eq (s m : ℤ) (l : List ℤ)
    (hv : (Ascending l ∧ s ≤ m) ∨ (Descending l ∧ m ≤ s)) :
    ∃ N : ℕ, Pattern.count ⟨l⟩ (m - s) = (N : ℤ) ∧
      PRange.toList ⟨s, .fin m, ⟨l⟩⟩ =
        (List.range N).map (fun n => s + Pattern.stream ⟨l⟩ n) := by
  rcases hv with ⟨hasc, hsm⟩ | ⟨hdesc, hms⟩
  · obtain ⟨N, hc, hchara⟩ := count_spec_asc l hasc (m - s) (by omega)
    refine ⟨N, hc, ?_⟩
    have hNlim : N ≤ (s - m).natAbs := by
      by_contra hcon
      have h1 := (hchara (m - s).toNat).mpr (by omega)
      have h2 := stream_ge_of_asc l hasc (m - s).toNat
      omega
    have hpred : ∀ n, n < N →
        (decide ((Pattern.stream ⟨l⟩ n).natAbs < (s - m).natAbs)) = true := by
      intro n hn
      have h1 := (hchara n).mpr hn
      have h2 := stream_nonneg_of_asc l hasc n
      simp only [decide_eq_true_eq]
      omega
    have hpredN :
        (decide ((Pattern.stream ⟨l⟩ N).natAbs < (s - m).natAbs)) = false := by
      have h1 := (hchara N).not.mpr (by omega)
      have h2 := stream_nonneg_of_asc l hasc N
      simp only [decide_eq_false_iff_not]
      omega
    simp only [PRange.toList]
    rw [takeWhile_range_map (Pattern.stream ⟨l⟩)
          (fun i => decide (i.natAbs < (s - m).natAbs)) N ((s - m).natAbs + 1)
          (by omega) hpred hpredN,
        List.map_map]
    rfl
  · obtain ⟨N, hc, hchara⟩ := count_spec_desc l hdesc (m - s) (by omega)
    refine ⟨N, hc, ?_⟩
    have hNlim : N ≤ (s - m).natAbs := by
      by_contra hcon
      have h1 := (hchara (s - m).toNat).mpr (by omega)
      have h2 := stream_natAbs_ge l (Or.inr hdesc) (s - m).toNat
      have h3 := stream_nonpos_of_desc l hdesc (s - m).toNat
      omega
    have hpred : ∀ n, n < N →
        (decide ((Pattern.stream ⟨l⟩ n).natAbs < (s - m).natAbs)) = true := by
      intro n hn
      have h1 := (hchara n).mpr hn
      have h2 := stream_nonpos_of_desc l hdesc n
      simp only [decide_eq_true_eq]
      omega
    have hpredN :
        (decide ((Pattern.stream ⟨l⟩ N).natAbs < (s - m).natAbs)) = false := by
      have h1 := (hchara N).not.mpr (by omega)
      have h2 := stream_nonpos_of_desc l hdesc N
      simp only [decide_eq_false_iff_not]
      omega
    simp only [PRange.toList]
    rw [takeWhile_range_map (Pattern.stream ⟨l⟩)
          (fun i => decide (i.natAbs < (s - m).natAbs)) N ((s - m).natAbs + 1)
          (by omega) hpred hpredN,
        List.map_map]
    rfl

/-- C10: on every range `range()` builds with a finite stop, `len()` returns
exactly the number of elements iteration yields. -/
theorem c10_len_matches_iteration (s t : ℤ) (steps : List ℤ) (r : PRange)
    (h : mkRange (.fin s) (.fin t) steps = .ok r) :
    PRange.len r = .ok (((PRange.toList r).length : ℕ) : ℤ) := by
  obtain ⟨m, rfl, hmt, hvalid⟩ := mkRange_fin_ok s t steps r h
  obtain ⟨N, hc, hlist⟩ := toList_eq s m steps hvalid
  rw [hlist]
  show Except.ok (Pattern.count ⟨steps⟩ (m - s)) = _
  rw [List.length_map, List.length_range, hc]

/-! ### Single-step patterns and fixed-stride counting -/

theorem asc_single (c : ℤ) (hc : 0 < c) : Ascending [c] :=
  ⟨by simp, List.chain'_singleton c, by simpa using hc⟩

theorem desc_single (c : ℤ) (hc : c < 0) : Descending [c] :=
  ⟨by simp, List.chain'_singleton c, by simpa using hc⟩

theorem stream_single (c : ℤ) (n : ℕ) :
    Pattern.stream ⟨[c]⟩ n = (n : ℤ) * c := by
  cases n with
  | zero => simp [Pattern.stream]
  | succ m =>
    show ((m / [c].length : ℕ) : ℤ) * Pattern.size ⟨[c]⟩ + [c].getD (m % [c].length) 0 = _
    show ((m / 1 : ℕ) : ℤ) * c + [c].getD (m % 1) 0 = _
    rw [Nat.div_one, Nat.mod_one]
    show (m : ℤ) * c + c = _
    push_cast
    ring

theorem fdiv_sub_right (D c : ℤ) (hc : c ≠ 0) :
    Int.fdiv (D - c) c = Int.fdiv D c - 1 := by
  rcases lt_or_gt_of_ne hc with hneg | hpos
  · rw [← fdiv_neg_neg (D - c) c, ← fdiv_neg_neg D c,
        Int.fdiv_eq_ediv _ (by omega : (0 : ℤ) ≤ -c),
        Int.fdiv_eq_ediv _ (by omega : (0 : ℤ) ≤ -c),
        show -(D - c) = -D + (-1) * (-c) from by ring,
        Int.add_mul_ediv_right _ _ (by omega : (-c) ≠ 0)]
    ring
  · rw [Int.fdiv_eq_ediv _ (by omega : (0 : ℤ) ≤ c),
        Int.fdiv_eq_ediv _ (by omega : (0 : ℤ) ≤ c),
        show D - c = D + (-1) * c from by ring,
        Int.add_mul_ediv_right _ _ (by omega : c ≠ 0)]
    ring

theorem fmod_sub_right (D c : ℤ) (hc : c ≠ 0) :
    Int.fmod (D - c) c = Int.fmod D c := by
  rw [Int.fmod_def, Int.fmod_def, fdiv_sub_right D c hc]
  ring

theorem count_single_sub (c : ℤ) (hc : c ≠ 0) (D : ℤ) :
    Pattern.count ⟨[c]⟩ (D - c) = Pattern.count ⟨[c]⟩ D - 1 := by
  show Int.fdiv (D - c) (Pattern.size ⟨[c]⟩) * ([c].length : ℤ) +
      ((Pattern.index ⟨[c]⟩ (Int.fmod (D - c) (Pattern.size ⟨[c]⟩))).1 : ℤ) =
    Int.fdiv D (Pattern.size ⟨[c]⟩) * ([c].length : ℤ) +
      ((Pattern.index ⟨[c]⟩ (Int.fmod D (Pattern.size ⟨[c]⟩))).1 : ℤ) - 1
  show Int.fdiv (D - c) c * (1 : ℤ) +
      ((Pattern.index ⟨[c]⟩ (Int.fmod (D - c) c)).1 : ℤ) =
    Int.fdiv D c * (1 : ℤ) + ((Pattern.index ⟨[c]⟩ (Int.fmod D c)).1 : ℤ) - 1
  rw [fdiv_sub_right D c hc, fmod_sub_right D c hc]
  ring

theorem index_single_le_one (c v : ℤ) : (Pattern.index ⟨[c]⟩ v).1 ≤ 1 := by
  unfold Pattern.index
  split
  · omega
  · simp only [Pattern.indexGo]
    split <;> simp

theorem count_single_nonpos (c D : ℤ)
    (h : (0 < c ∧ D ≤ 0) ∨ (c < 0 ∧ 0 ≤ D)) : Pattern.count ⟨[c]⟩ D ≤ 0 := by
  have key : ∀ c' D' : ℤ, 0 < c' → D' ≤ 0 → Pattern.count ⟨[c']⟩ D' ≤ 0 := by
    intro c' D' hc' hD'
    rcases eq_or_lt_of_le hD' with rfl0 | hDlt
    · rw [rfl0]
      show Int.fdiv 0 c' * (1 : ℤ) + ((Pattern.index ⟨[c']⟩ (Int.fmod 0 c')).1 : ℤ) ≤ 0
      rw [Int.zero_fdiv, Int.zero_fmod]
      simp [Pattern.index]
    · have hfd : Int.fdiv D' c' < 0 := Int.fdiv_neg' hDlt hc'
      have hidx := index_single_le_one c' (Int.fmod D' c')
      show Int.fdiv D' c' * (1 : ℤ) + ((Pattern.index ⟨[c']⟩ (Int.fmod D' c')).1 : ℤ) ≤ 0
      omega
  rcases h with ⟨hc, hD⟩ | ⟨hc, hD⟩
  · exact key c D hc hD
  · have hmir := count_map_neg [c] (by simp) D
    have : ([c].map fun x => -x) = [-c] := rfl
    rw [this] at hmir
    rw [hmir]
    exact key (-c) (-D) (by omega) (by omega)

theorem count_single_pos (c D : ℤ)
    (h : (0 < c ∧ 1 ≤ D) ∨ (c < 0 ∧ D ≤ -1)) : 1 ≤ Pattern.count ⟨[c]⟩ D := by
  have key : ∀ c' D' : ℤ, 0 < c' → 1 ≤ D' → 1 ≤ Pattern.count ⟨[c']⟩ D' := by
    intro c' D' hc' hD'
    obtain ⟨N, hcnt, hchara⟩ := count_spec_asc [c'] (asc_single c' hc') D' (by omega)
    have h0 : (0 : ℕ) < N := (hchara 0).mp (by
      show Pattern.stream ⟨[c']⟩ 0 < D'
      rw [stream_single]
      push_cast
      omega)
    omega
  rcases h with ⟨hc, hD⟩ | ⟨hc, hD⟩
  · exact key c D hc hD
  · have hmir := count_map_neg [c] (by simp) D
    have : ([c].map fun x => -x) = [-c] := rfl
    rw [this] at hmir
    rw [hmir]
    exact key (-c) (-D) (by omega) (by omega)

/-- Closed form of the manual fixed-stride count: `strideList` lists the
first `count` multiples of `step` shifted by `start`, where `count` is
`_Pattern.count` of the single-step pattern at distance `stop - start`. -/
theorem strideList_eq (step : ℤ) (hstep : step ≠ 0) (start stop : ℤ) :
    strideList start stop step =
      (List.range (Pattern.count ⟨[step]⟩ (stop - start)).toNat).map
        (fun n : ℕ => start + step * (n : ℤ)) := by
  suffices H : ∀ (fuel : ℕ) (a b : ℤ),
      (if 0 < step then b - a else a - b).toNat ≤ fuel →
      strideList a b step =
        (List.range (Pattern.count ⟨[step]⟩ (b - a)).toNat).map
          (fun n : ℕ => a + step * (n : ℤ)) from H _ start stop le_rfl
  intro fuel
  induction fuel with
  | zero =>
    intro a b hf
    rw [strideList]
    rcases lt_or_gt_of_ne hstep with hneg | hpos
    · rw [if_neg (by omega)] at hf
      rw [if_neg (by omega), if_neg (by omega)]
      have hcle := count_single_nonpos step (b - a) (Or.inr ⟨hneg, by omega⟩)
      rw [show (Pattern.count ⟨[step]⟩ (b - a)).toNat = 0 from by omega]
      rfl
    · rw [if_pos (by omega)] at hf
      rw [if_neg (by omega), if_neg (by omega)]
      have hcle := count_single_nonpos step (b - a) (Or.inl ⟨hpos, by omega⟩)
      rw [show (Pattern.count ⟨[step]⟩ (b - a)).toNat = 0 from by omega]
      rfl
  | succ fuel ih =>
    intro a b hf
    have hstep_cases : (0 < step ∧ a < b) ∨ (step < 0 ∧ b < a) ∨
        ((¬ (0 < step ∧ a < b)) ∧ (¬ (step < 0 ∧ b < a))) := by
      by_cases h1 : 0 < step ∧ a < b
      · exact Or.inl h1
      by_cases h2 : step < 0 ∧ b < a
      · exact Or.inr (Or.inl h2)
      exact Or.inr (Or.inr ⟨h1, h2⟩)
    rcases hstep_cases with ⟨hpos, hab⟩ | ⟨hneg, hba⟩ | ⟨hn1, hn2⟩
    · rw [strideList, if_pos ⟨hpos, hab⟩]
      rw [if_pos (by omega)] at hf
      have hrec := ih (a + step) b (by rw [if_pos (by omega)]; omega)
      rw [hrec]
      have hc1 := count_single_pos step (b - a) (Or.inl ⟨hpos, by omega⟩)
      have hcsub : Pattern.count ⟨[step]⟩ (b - (a + step)) =
          Pattern.count ⟨[step]⟩ (b - a) - 1 := by
        rw [show b - (a + step) = (b - a) - step from by ring,
            count_single_sub step hstep]
      rw [hcsub]
      rw [show (Pattern.count ⟨[step]⟩ (b - a) - 1).toNat =
            (Pattern.count ⟨[step]⟩ (b - a)).toNat - 1 from by omega]
      rw [show (Pattern.count ⟨[step]⟩ (b - a)).toNat =
            ((Pattern.count ⟨[step]⟩ (b - a)).toNat - 1) + 1 from by omega,
          List.range_succ_eq_map, List.map_cons, List.map_map]
      refine congrArg₂ List.cons (by simp) ?_
      refine List.map_congr_left ?_
      intro n _
      simp only [Function.comp_apply]
      push_cast
      ring
    · rw [strideList, if_neg (by omega), if_pos ⟨hneg, hba⟩]
      rw [if_neg (by omega)] at hf
      have hrec := ih (a + step) b (by rw [if_neg (by omega)]; omega)
      rw [hrec]
      have hc1 := count_single_pos step (b - a) (Or.inr ⟨hneg, by omega⟩)
      have hcsub : Pattern.count ⟨[step]⟩ (b - (a + step)) =
          Pattern.count ⟨[step]⟩ (b - a) - 1 := by
        rw [show b - (a + step) = (b - a) - step from by ring,
            count_single_sub step hstep]
      rw [hcsub]
      rw [show (Pattern.count ⟨[step]⟩ (b - a) - 1).toNat =
            (Pattern.count ⟨[step]⟩ (b - a)).toNat - 1 from by omega]
      rw [show (Pattern.count ⟨[step]⟩ (b - a)).toNat =
            ((Pattern.count ⟨[step]⟩ (b - a)).toNat - 1) + 1 from by omega,
          List.range_succ_eq_map, List.map_cons, List.map_map]
      refine congrArg₂ List.cons (by simp) ?_
      refine List.map_congr_left ?_
      intro n _
      simp only [Function.comp_apply]
      push_cast
      ring
    · rw [strideList, if_neg hn1, if_neg hn2]
      rcases lt_or_gt_of_ne hstep with hneg | hpos
      · have hcle := count_single_nonpos step (b - a) (Or.inr ⟨hneg, by omega⟩)
        rw [show (Pattern.count ⟨[step]⟩ (b - a)).toNat = 0 from by omega]
        rfl
      · have hcle := count_single_nonpos step (b - a) (Or.inl ⟨hpos, by omega⟩)
        rw [show (Pattern.count ⟨[step]⟩ (b - a)).toNat = 0 from by omega]
        rfl

/-- C2: iterating a single-step range whose step sign is consistent with
`stop - start` materializes exactly the manual fixed-stride list. -/
theorem c2_iter_eq_stride (start stop step : ℤ) (hstep : step ≠ 0)
    (hdir : (0 < step ∧ start ≤ stop) ∨ (step < 0 ∧ stop ≤ start)) :
    mkRange (.fin start) (.fin stop) [step] = .ok ⟨start, .fin stop, ⟨[step]⟩⟩ ∧
    PRange.toList ⟨start, .fin stop, ⟨[step]⟩⟩ = strideList start stop step := by
  constructor
  · simp only [mkRange, Bound.ltInt, stepsMonotone, decide_eq_true_eq]
    rw [if_neg (show ¬ (0 : ℤ) ∈ [step] from by simpa using (Ne.symm hstep))]
    split_ifs <;>
      first
        | rfl
        | omega
        | (rw [show stop = start from by omega])
        | simp_all
  · obtain ⟨N, hc, hlist⟩ := toList_eq start stop [step]
      (by
        rcases hdir with ⟨hpos, hle⟩ | ⟨hneg, hle⟩
        · exact Or.inl ⟨asc_single step hpos, hle⟩
        · exact Or.inr ⟨desc_single step hneg, hle⟩)
    rw [hlist, strideList_eq step hstep start stop, hc, Int.toNat_natCast]
    refine List.map_congr_left ?_
    intro n _
    rw [stream_single]
    ring

/-- Witness for `c2_iter_eq_stride` at `range(2, 17, 3)`. -/
theorem c2_iter_eq_stride_witness :
  (mkRange (.fin 2) (.fin 17) [3] = .ok ⟨2, .fin 17, ⟨[3]⟩⟩ ∧
   PRange.toList ⟨2, .fin 17, ⟨[3]⟩⟩ = strideList 2 17 3) ∧
  strideList 2 17 3 = [2, 5, 8, 11, 14] :=
  ⟨c2_iter_eq_stride 2 17 3 (by decide) (Or.inl (by decide)), by simp [strideList]⟩

/-- Witness for `c10_len_matches_iteration` at the descending multi-step
range `range(10, 0, -1, -2)`. -/
theorem c10_len_matches_iteration_witness :
  mkRange (.fin 10) (.fin 0) [-1, -2] = .ok ⟨10, .fin 0, ⟨[-1, -2]⟩⟩ ∧
  PRange.len ⟨10, .fin 0, ⟨[-1, -2]⟩⟩ =
    .ok (((PRange.toList ⟨10, .fin 0, ⟨[-1, -2]⟩⟩).length : ℕ) : ℤ) ∧
  PRange.toList ⟨10, .fin 0, ⟨[-1, -2]⟩⟩ = [10, 9, 8, 7, 6, 5, 4, 3, 2, 1] ∧
  PRange.len ⟨10, .fin 0, ⟨[-1, -2]⟩⟩ = .ok 10 :=
  ⟨by decide, c10_len_matches_iteration 10 0 [-1, -2] _ (by decide), by decide, by decide⟩
